import Mathlib

/-!
Verification model of the `openkit-native` beacon cache interface
(`src/caching/IBeaconCache.h`) and of the time-sync response parser
(`src/protocol/TimeSyncResponse.cxx`).

Strings (`core::UTF8String`) are modelled as `List Char`: `getStringLength`
is the character count, concatenation is list append.

The beacon-cache implementation class itself is not part of the source
excerpt; only the pure-virtual interface `IBeaconCache` with its documentation
is.  The cache behaviour is therefore modelled from the specification
(sections 3, 4.1, 4.2, 4.3 of the design document), as noted on each
definition.
-/

namespace OpenKitModel

/-- Characters of a Lean literal string, used to write concrete inputs. -/
def toChars (s : String) : List Char := s.data

/-- Modelled from the spec: a `Record` (spec §3) — an immutable timestamp and
payload plus the mutable `markedForSending` flag.  `BeaconCacheRecord` is the
record type named by `evictRecordsByAge` in `IBeaconCache.h`. -/
structure BeaconCacheRecord where
  timestamp : Int
  payload : List Char
  markedForSending : Bool
deriving DecidableEq, Repr

/-- Payload length of one record, the unit of the cache's byte accounting. -/
def payloadBytes (r : BeaconCacheRecord) : Int := (r.payload.length : Int)

/-- Total payload length of a list of records. -/
def listBytes : List BeaconCacheRecord → Int
  | [] => 0
  | r :: rest => payloadBytes r + listBytes rest

/-- Modelled from the spec: a per-key `Entry` (spec §3) — the two un-sent
streams (event records, action records) and the transient sending copy.
The sending copy is kept as the records already serialized into chunks
(`sendingChunked`) followed by the ones not yet serialized
(`sendingPending`); `hasSendingCopy` records whether a snapshot exists. -/
structure BeaconCacheEntry where
  eventData : List BeaconCacheRecord
  actionData : List BeaconCacheRecord
  sendingChunked : List BeaconCacheRecord
  sendingPending : List BeaconCacheRecord
  hasSendingCopy : Bool
deriving DecidableEq, Repr

/-- The entry holding no records at all. -/
def emptyEntry : BeaconCacheEntry := ⟨[], [], [], [], false⟩

/-- All payload bytes held by one entry (un-sent plus sending copy). -/
def entryBytes (e : BeaconCacheEntry) : Int :=
  listBytes e.eventData + listBytes e.actionData +
    listBytes e.sendingChunked + listBytes e.sendingPending

/-- Spec §3: an entry is empty iff both un-sent sequences and the
sending-copy sequence are empty. -/
def entryIsEmpty (e : BeaconCacheEntry) : Bool :=
  e.eventData.isEmpty && e.actionData.isEmpty &&
    e.sendingChunked.isEmpty && e.sendingPending.isEmpty

/-- Modelled from the spec: the `BeaconCache` (spec §3) — the key → entry
mapping together with the global running byte total returned by
`getNumBytesInCache`. -/
structure BeaconCache where
  entries : List (Int × BeaconCacheEntry)
  numBytesInCache : Int
deriving DecidableEq, Repr

/-- The cache at agent start: no entries, zero bytes. -/
def emptyCache : BeaconCache := ⟨[], 0⟩

/-- Entry stored for a key (first match in the association list). -/
def lookupEntry : List (Int × BeaconCacheEntry) → Int → Option BeaconCacheEntry
  | [], _ => none
  | (k2, e) :: rest, k => if k2 = k then some e else lookupEntry rest k

/-- Replace the entry stored for a key (first match) by a new entry. -/
def setEntry : List (Int × BeaconCacheEntry) → Int → BeaconCacheEntry →
    List (Int × BeaconCacheEntry)
  | [], _, _ => []
  | (k2, e) :: rest, k, e2 =>
    if k2 = k then (k2, e2) :: rest else (k2, e) :: setEntry rest k e2

/-- Drop the entry stored for a key (first match). -/
def removeEntry : List (Int × BeaconCacheEntry) → Int → List (Int × BeaconCacheEntry)
  | [], _ => []
  | (k2, e) :: rest, k =>
    if k2 = k then rest else (k2, e) :: removeEntry rest k

/-- Sum of `entryBytes` over the whole mapping. -/
def totalBytes : List (Int × BeaconCacheEntry) → Int
  | [] => 0
  | (_, e) :: rest => entryBytes e + totalBytes rest

/-- A freshly inserted record: flag `markedForSending` is initially false. -/
def newRecord (ts : Int) (data : List Char) : BeaconCacheRecord := ⟨ts, data, false⟩

/-- Set `markedForSending` (done while snapshotting into the sending copy). -/
def markRecord (r : BeaconCacheRecord) : BeaconCacheRecord :=
  { r with markedForSending := true }

/-- Clear `markedForSending` (done by `resetChunkedData`). -/
def unmarkRecord (r : BeaconCacheRecord) : BeaconCacheRecord :=
  { r with markedForSending := false }

/-- Modelled from the spec: `addEventData` (spec §4.1) — append a new record
to the event stream of the key's entry, creating the entry if absent, and add
the payload length to the global byte total. -/
def addEventData (c : BeaconCache) (k : Int) (ts : Int) (data : List Char) :
    BeaconCache :=
  let r := newRecord ts data
  { entries :=
      match lookupEntry c.entries k with
      | none => c.entries ++ [(k, { emptyEntry with eventData := [r] })]
      | some e => setEntry c.entries k { e with eventData := e.eventData ++ [r] },
    numBytesInCache := c.numBytesInCache + (data.length : Int) }

/-- Modelled from the spec: `addActionData` (spec §4.1), the action-stream
counterpart of `addEventData`. -/
def addActionData (c : BeaconCache) (k : Int) (ts : Int) (data : List Char) :
    BeaconCache :=
  let r := newRecord ts data
  { entries :=
      match lookupEntry c.entries k with
      | none => c.entries ++ [(k, { emptyEntry with actionData := [r] })]
      | some e => setEntry c.entries k { e with actionData := e.actionData ++ [r] },
    numBytesInCache := c.numBytesInCache + (data.length : Int) }

/-- Modelled from the spec: `deleteCacheEntry` (spec §4.1) — remove the whole
entry, subtracting all its held bytes; a no-op for an absent key. -/
def deleteCacheEntry (c : BeaconCache) (k : Int) : BeaconCache :=
  match lookupEntry c.entries k with
  | none => c
  | some e =>
    { entries := removeEntry c.entries k,
      numBytesInCache := c.numBytesInCache - entryBytes e }

/-- Modelled from the spec: `isEmpty` (spec §4.1) — true if the key has no
entry or its entry is empty. -/
def isEmpty (c : BeaconCache) (k : Int) : Bool :=
  match lookupEntry c.entries k with
  | none => true
  | some e => entryIsEmpty e

/-- `getNumBytesInCache` — the global running byte total. -/
def getNumBytesInCache (c : BeaconCache) : Int := c.numBytesInCache

/-- The age comparison used by `evictRecordsByAge`: strictly older than the
minimum allowed timestamp. -/
def recordOlderThan (minTs : Int) (r : BeaconCacheRecord) : Bool :=
  r.timestamp < minTs

/-- Modelled from the spec: `evictRecordsByAge` (spec §4.3) — drop from the
front of each un-sent stream the leading records older than `minTs`, stopping
at the first record that does not qualify; the sending copy is untouched.
Returns the evicted count together with the new cache. -/
def evictRecordsByAge (c : BeaconCache) (k : Int) (minTs : Int) :
    Nat × BeaconCache :=
  match lookupEntry c.entries k with
  | none => (0, c)
  | some e =>
    let evE := e.eventData.takeWhile (recordOlderThan minTs)
    let evA := e.actionData.takeWhile (recordOlderThan minTs)
    let e2 := { e with
                eventData := e.eventData.dropWhile (recordOlderThan minTs),
                actionData := e.actionData.dropWhile (recordOlderThan minTs) }
    (evE.length + evA.length,
      { entries := setEntry c.entries k e2,
        numBytesInCache := c.numBytesInCache - (listBytes evE + listBytes evA) })

/-- Modelled from the spec: `evictRecordsByNumber` (spec §4.3) — drop up to
`n` records from the front of the un-sent data (events first, then actions),
stopping early when exhausted; the sending copy is untouched. -/
def evictRecordsByNumber (c : BeaconCache) (k : Int) (n : Nat) :
    Nat × BeaconCache :=
  match lookupEntry c.entries k with
  | none => (0, c)
  | some e =>
    let dE := min n e.eventData.length
    let dA := min (n - dE) e.actionData.length
    let e2 := { e with
                eventData := e.eventData.drop dE,
                actionData := e.actionData.drop dA }
    (dE + dA,
      { entries := setEntry c.entries k e2,
        numBytesInCache := c.numBytesInCache -
          (listBytes (e.eventData.take dE) + listBytes (e.actionData.take dA)) })

/-- Modelled from the spec: the snapshot step of `getNextBeaconChunk`
(spec §4.2.1) — if no sending copy exists yet, move all currently un-sent
records (events then actions, order preserved) into the sending copy, each
with `markedForSending` set; otherwise keep the entry unchanged. -/
def snapshotEntry (e : BeaconCacheEntry) : BeaconCacheEntry :=
  if e.hasSendingCopy then e
  else
    { eventData := [],
      actionData := [],
      sendingChunked := e.sendingChunked,
      sendingPending :=
        e.sendingPending ++ (e.eventData ++ e.actionData).map markRecord,
      hasSendingCopy := true }

/-- Serialization loop of `getNextBeaconChunk` after the first payload:
append each further payload preceded by the delimiter, only while the
appended result would still be shorter than `maxSize`.  Returns the
assembled text, the records taken, and the records left pending. -/
def chunkLoop (d : List Char) (maxSize : Nat) (acc : List Char) :
    List BeaconCacheRecord →
      List Char × List BeaconCacheRecord × List BeaconCacheRecord
  | [] => (acc, [], [])
  | r :: rs =>
    if acc.length + d.length + r.payload.length < maxSize then
      let out := chunkLoop d maxSize (acc ++ d ++ r.payload) rs
      (out.1, r :: out.2.1, out.2.2)
    else
      (acc, [], r :: rs)

/-- Serialization step of `getNextBeaconChunk` (spec §4.2.1 and §6): start
with the prefix, always include the first pending payload when one exists
(the size limit never splits or drops a lone payload), then continue with
`chunkLoop`. -/
def buildChunk (pfx : List Char) (d : List Char) (maxSize : Nat) :
    List BeaconCacheRecord →
      List Char × List BeaconCacheRecord × List BeaconCacheRecord
  | [] => (pfx, [], [])
  | r :: rs =>
    let out := chunkLoop d maxSize (pfx ++ r.payload) rs
    (out.1, r :: out.2.1, out.2.2)

/-- Modelled from the spec: `getNextBeaconChunk` (spec §4.2.1) — empty result
for an absent or empty key; otherwise snapshot if needed, serialize greedily
from the pending part of the sending copy, and record which records the chunk
consumed.  The byte total is unchanged. -/
def getNextBeaconChunk (c : BeaconCache) (k : Int) (pfx : List Char)
    (maxSize : Nat) (d : List Char) : List Char × BeaconCache :=
  match lookupEntry c.entries k with
  | none => ([], c)
  | some e =>
    if entryIsEmpty e then ([], c)
    else
      let e1 := snapshotEntry e
      let out := buildChunk pfx d maxSize e1.sendingPending
      let e2 := { e1 with
                  sendingChunked := e1.sendingChunked ++ out.2.1,
                  sendingPending := out.2.2 }
      (out.1, { c with entries := setEntry c.entries k e2 })

/-- Modelled from the spec: `removeChunkedData` (spec §4.2.2) — permanently
discard every record in the sending copy, subtracting their bytes; the entry
is ready for the next drain cycle. -/
def removeChunkedData (c : BeaconCache) (k : Int) : BeaconCache :=
  match lookupEntry c.entries k with
  | none => c
  | some e =>
    let e2 := { e with
                sendingChunked := ([] : List BeaconCacheRecord),
                sendingPending := ([] : List BeaconCacheRecord),
                hasSendingCopy := false }
    { entries := setEntry c.entries k e2,
      numBytesInCache := c.numBytesInCache -
        (listBytes e.sendingChunked + listBytes e.sendingPending) }

/-- Modelled from the spec: `resetChunkedData` (spec §4.2.3) — return every
record of the sending copy, unmarked, to the front of the un-sent data (ahead
of records inserted in the meantime); no byte accounting change. -/
def resetChunkedData (c : BeaconCache) (k : Int) : BeaconCache :=
  match lookupEntry c.entries k with
  | none => c
  | some e =>
    let e2 := { e with
                eventData :=
                  (e.sendingChunked ++ e.sendingPending).map unmarkRecord ++ e.eventData,
                sendingChunked := ([] : List BeaconCacheRecord),
                sendingPending := ([] : List BeaconCacheRecord),
                hasSendingCopy := false }
    { c with entries := setEntry c.entries k e2 }

/-- One cache operation, for quantifying over operation sequences. -/
inductive CacheOp where
  | addEvent (k : Int) (ts : Int) (data : List Char)
  | addAction (k : Int) (ts : Int) (data : List Char)
  | delete (k : Int)
  | evictByAge (k : Int) (minTs : Int)
  | evictByNumber (k : Int) (n : Nat)
  | getChunk (k : Int) (pfx : List Char) (maxSize : Nat) (d : List Char)
  | removeChunked (k : Int)
  | resetChunked (k : Int)
deriving DecidableEq, Repr

/-- Apply one operation to the cache (return values discarded). -/
def applyOp (c : BeaconCache) : CacheOp → BeaconCache
  | .addEvent k ts data => addEventData c k ts data
  | .addAction k ts data => addActionData c k ts data
  | .delete k => deleteCacheEntry c k
  | .evictByAge k minTs => (evictRecordsByAge c k minTs).2
  | .evictByNumber k n => (evictRecordsByNumber c k n).2
  | .getChunk k pfx maxSize d => (getNextBeaconChunk c k pfx maxSize d).2
  | .removeChunked k => removeChunkedData c k
  | .resetChunked k => resetChunkedData c k

/-- Run a sequence of operations from the empty cache. -/
def runOps (ops : List CacheOp) : BeaconCache := ops.foldl applyOp emptyCache

/-- Whether an operation is an insertion (`addEventData` / `addActionData`). -/
def isInsertOp : CacheOp → Bool
  | .addEvent _ _ _ => true
  | .addAction _ _ _ => true
  | _ => false

/-!
Model of `TimeSyncResponse::parseResponse` (`src/protocol/TimeSyncResponse.cxx`).
Strings are again `List Char`.  `std::stoll` failures (`invalid_argument`,
`out_of_range`) and their propagation out of the constructor are modelled by
`Option`: `none` is a thrown exception.
-/

/-- `core::UTF8String::split('&')`: the parts of the response between the
separator characters. -/
def splitAmp : List Char → List (List Char)
  | [] => [[]]
  | ch :: rest =>
    if ch = '&' then [] :: splitAmp rest
    else
      match splitAmp rest with
      | [] => [[ch]]
      | p :: ps => (ch :: p) :: ps

/-- The `getIndexOf("=") / substring` pair of `parseResponse`: the text before
the first `=` and the text after it, or `none` when the part has no `=`. -/
def splitKV : List Char → Option (List Char × List Char)
  | [] => none
  | ch :: rest =>
    if ch = '=' then some ([], rest)
    else
      match splitKV rest with
      | none => none
      | some kv => some (ch :: kv.1, kv.2)

/-- The whitespace characters skipped by `std::stoll` (C `isspace`, default
locale). -/
def isSpaceChar (ch : Char) : Bool :=
  ch = ' ' || ch = '\t' || ch = '\n' || ch = Char.ofNat 11 || ch = Char.ofNat 12 ||
    ch = '\r'

/-- Numeric value of a string of decimal digits. -/
def digitsToNat (l : List Char) : Nat :=
  l.foldl (fun acc ch => 10 * acc + (ch.toNat - 48)) 0

/-- Largest `long long` value, `2^63 - 1`. -/
def INT64_MAX : Int := 9223372036854775807

/-- Smallest `long long` value, `-2^63`. -/
def INT64_MIN : Int := -9223372036854775808

/-- `std::stoll` with base 10: skip leading whitespace, read an optional sign
and then as many decimal digits as possible.  `none` models the
`invalid_argument` exception (no digits) and the `out_of_range` exception
(value outside the `long long` range). -/
def stoll (s : List Char) : Option Int :=
  let s1 := s.dropWhile isSpaceChar
  let signAndRest : Int × List Char :=
    match s1 with
    | '-' :: t => (-1, t)
    | '+' :: t => (1, t)
    | _ => (1, s1)
  let digits := signAndRest.2.takeWhile Char.isDigit
  if digits.isEmpty then none
  else
    let v : Int := signAndRest.1 * (digitsToNat digits : Int)
    if v < INT64_MIN ∨ INT64_MAX < v then none else some v

/-- The body of the `parseResponse` loop for one part: split at the first `=`;
skip the part when there is no `=` or the key or value is empty; otherwise,
when the key equals `RESPONSE_KEY_REQUEST_RECEIVE_TIME` (`k1`) or
`RESPONSE_KEY_RESPONSE_SEND_TIME` (`k2`), store the `stoll` of the value in
the corresponding field.  `none` models a `stoll` exception escaping the loop.
The two protocol constants are parameters because `ProtocolConstants.h` is not
part of the source excerpt. -/
def parsePart (k1 k2 : List Char) (s : Int × Int) (part : List Char) :
    Option (Int × Int) :=
  match splitKV part with
  | none => some s
  | some kv =>
    if kv.1 ≠ [] ∧ kv.2 ≠ [] then
      if kv.1 = k1 then
        match stoll kv.2 with
        | none => none
        | some v => some (v, s.2)
      else if kv.1 = k2 then
        match stoll kv.2 with
        | none => none
        | some v => some (s.1, v)
      else some s
    else some s

/-- The `parseResponse` loop over all parts, threading the
`(mRequestReceiveTime, mResponseSendTime)` state and propagating a thrown
exception. -/
def parseParts (k1 k2 : List Char) (s : Int × Int) :
    List (List Char) → Option (Int × Int)
  | [] => some s
  | p :: ps =>
    match parsePart k1 k2 s p with
    | none => none
    | some s2 => parseParts k1 k2 s2 ps

/-- The `TimeSyncResponse` constructor: both times start at `-1`, then
`parseResponse` runs over the `&`-separated parts of the response.  A `some`
result holds the values later returned by `getRequestReceiveTime` and
`getResponseSendTime`; `none` is an exception escaping the constructor. -/
def timeSyncResponse (k1 k2 : List Char) (response : List Char) :
    Option (Int × Int) :=
  parseParts k1 k2 (-1, -1) (splitAmp response)

/-- Whether one part sets the field for key `k`: it splits as `key=value` with
`key = k` and both key and value non-empty. -/
def partMatches (k : List Char) (part : List Char) : Bool :=
  match splitKV part with
  | none => false
  | some kv => decide (kv.1 = k ∧ kv.1 ≠ [] ∧ kv.2 ≠ [])

/-- Whether one part is skipped by the loop: no `=`, or an empty key or
value. -/
def partSkipped (part : List Char) : Bool :=
  match splitKV part with
  | none => true
  | some kv => kv.1.isEmpty || kv.2.isEmpty

/-- Whether the value of a part is safe for the loop: if the part would reach
a `stoll` call (recognized key, key and value non-empty), the value parses. -/
def partValueParses (k1 k2 : List Char) (part : List Char) : Bool :=
  match splitKV part with
  | none => true
  | some kv =>
    if kv.1 ≠ [] ∧ kv.2 ≠ [] ∧ (kv.1 = k1 ∨ kv.1 = k2) then (stoll kv.2).isSome
    else true

/-! ### Helper lemmas about byte sums and the key → entry mapping -/

theorem listBytes_append (l1 l2 : List BeaconCacheRecord) :
    listBytes (l1 ++ l2) = listBytes l1 + listBytes l2 := by
  induction l1 with
  | nil => simp [listBytes]
  | cons r rest ih => simp [listBytes, ih]; ring

theorem payloadBytes_markRecord (r : BeaconCacheRecord) :
    payloadBytes (markRecord r) = payloadBytes r := rfl

theorem payloadBytes_unmarkRecord (r : BeaconCacheRecord) :
    payloadBytes (unmarkRecord r) = payloadBytes r := rfl

theorem listBytes_map_markRecord (l : List BeaconCacheRecord) :
    listBytes (l.map markRecord) = listBytes l := by
  induction l with
  | nil => rfl
  | cons r rest ih => simp [listBytes, payloadBytes_markRecord, ih]

theorem listBytes_map_unmarkRecord (l : List BeaconCacheRecord) :
    listBytes (l.map unmarkRecord) = listBytes l := by
  induction l with
  | nil => rfl
  | cons r rest ih => simp [listBytes, payloadBytes_unmarkRecord, ih]

theorem listBytes_takeWhile_add_dropWhile (p : BeaconCacheRecord → Bool)
    (l : List BeaconCacheRecord) :
    listBytes (l.takeWhile p) + listBytes (l.dropWhile p) = listBytes l := by
  rw [← listBytes_append, List.takeWhile_append_dropWhile]

theorem listBytes_take_add_drop (n : Nat) (l : List BeaconCacheRecord) :
    listBytes (l.take n) + listBytes (l.drop n) = listBytes l := by
  rw [← listBytes_append, List.take_append_drop]

theorem totalBytes_append_single (es : List (Int × BeaconCacheEntry)) (k : Int)
    (e : BeaconCacheEntry) :
    totalBytes (es ++ [(k, e)]) = totalBytes es + entryBytes e := by
  induction es with
  | nil => simp [totalBytes]
  | cons pr rest ih => simp [totalBytes, ih]; ring

theorem lookupEntry_cons_self (k : Int) (e : BeaconCacheEntry)
    (rest : List (Int × BeaconCacheEntry)) :
    lookupEntry ((k, e) :: rest) k = some e := by
  simp [lookupEntry]

theorem lookupEntry_cons_ne (k2 k : Int) (e : BeaconCacheEntry)
    (rest : List (Int × BeaconCacheEntry)) (h : k2 ≠ k) :
    lookupEntry ((k2, e) :: rest) k = lookupEntry rest k := by
  simp [lookupEntry, h]

theorem totalBytes_setEntry (es : List (Int × BeaconCacheEntry)) (k : Int)
    (e e2 : BeaconCacheEntry) (h : lookupEntry es k = some e) :
    totalBytes (setEntry es k e2) = totalBytes es - entryBytes e + entryBytes e2 := by
  induction es with
  | nil => simp [lookupEntry] at h
  | cons pr rest ih =>
    obtain ⟨k2, e3⟩ := pr
    by_cases hk : k2 = k
    · subst hk
      rw [lookupEntry_cons_self] at h
      obtain rfl : e3 = e := Option.some.inj h
      simp [setEntry, totalBytes]
      ring
    · rw [lookupEntry_cons_ne _ _ _ _ hk] at h
      simp [setEntry, totalBytes, hk, ih h]
      ring

theorem totalBytes_removeEntry (es : List (Int × BeaconCacheEntry)) (k : Int)
    (e : BeaconCacheEntry) (h : lookupEntry es k = some e) :
    totalBytes (removeEntry es k) = totalBytes es - entryBytes e := by
  induction es with
  | nil => simp [lookupEntry] at h
  | cons pr rest ih =>
    obtain ⟨k2, e3⟩ := pr
    by_cases hk : k2 = k
    · subst hk
      rw [lookupEntry_cons_self] at h
      obtain rfl : e3 = e := Option.some.inj h
      simp [removeEntry, totalBytes]
    · rw [lookupEntry_cons_ne _ _ _ _ hk] at h
      simp [removeEntry, totalBytes, hk, ih h]
      ring

theorem lookupEntry_setEntry_self (es : List (Int × BeaconCacheEntry)) (k : Int)
    (e e2 : BeaconCacheEntry) (h : lookupEntry es k = some e) :
    lookupEntry (setEntry es k e2) k = some e2 := by
  induction es with
  | nil => simp [lookupEntry] at h
  | cons pr rest ih =>
    obtain ⟨k2, e3⟩ := pr
    by_cases hk : k2 = k
    · subst hk
      simp [setEntry, lookupEntry]
    · rw [lookupEntry_cons_ne _ _ _ _ hk] at h
      simp [setEntry, lookupEntry, hk, ih h]

theorem lookupEntry_setEntry_ne (es : List (Int × BeaconCacheEntry))
    (k1 k : Int) (e2 : BeaconCacheEntry) (h : k1 ≠ k) :
    lookupEntry (setEntry es k1 e2) k = lookupEntry es k := by
  induction es with
  | nil => simp [setEntry]
  | cons pr rest ih =>
    obtain ⟨k2, e3⟩ := pr
    by_cases hk : k2 = k1
    · subst hk
      have h2 : k2 ≠ k := h
      simp [setEntry, lookupEntry, h2]
    · by_cases h2 : k2 = k
      · subst h2
        simp [setEntry, lookupEntry, hk]
      · simp [setEntry, lookupEntry, hk, h2, ih]

theorem lookupEntry_append_of_some (es : List (Int × BeaconCacheEntry))
    (l2 : List (Int × BeaconCacheEntry)) (k : Int) (e : BeaconCacheEntry)
    (h : lookupEntry es k = some e) :
    lookupEntry (es ++ l2) k = some e := by
  induction es with
  | nil => simp [lookupEntry] at h
  | cons pr rest ih =>
    obtain ⟨k2, e3⟩ := pr
    by_cases hk : k2 = k
    · subst hk
      rw [lookupEntry_cons_self] at h
      obtain rfl : e3 = e := Option.some.inj h
      simp [lookupEntry]
    · rw [lookupEntry_cons_ne _ _ _ _ hk] at h
      simp [lookupEntry, hk, ih h]

/-! ### Chunk serialization lemmas -/

theorem chunkLoop_split (d : List Char) (m : Nat) (l : List BeaconCacheRecord) :
    ∀ acc : List Char,
      (chunkLoop d m acc l).2.1 ++ (chunkLoop d m acc l).2.2 = l := by
  induction l with
  | nil => intro acc; simp [chunkLoop]
  | cons r rs ih =>
    intro acc
    by_cases hlt : acc.length + d.length + r.payload.length < m
    · simp [chunkLoop, hlt, ih]
    · simp [chunkLoop, hlt]

theorem buildChunk_split (pfx d : List Char) (m : Nat)
    (l : List BeaconCacheRecord) :
    (buildChunk pfx d m l).2.1 ++ (buildChunk pfx d m l).2.2 = l := by
  cases l with
  | nil => simp [buildChunk]
  | cons r rs => simp [buildChunk, chunkLoop_split]

theorem listBytes_chunkParts (pfx d : List Char) (m : Nat)
    (l : List BeaconCacheRecord) :
    listBytes (buildChunk pfx d m l).2.1 + listBytes (buildChunk pfx d m l).2.2 =
      listBytes l := by
  rw [← listBytes_append, buildChunk_split]

theorem entryBytes_snapshotEntry (e : BeaconCacheEntry) :
    entryBytes (snapshotEntry e) = entryBytes e := by
  unfold snapshotEntry
  split
  · rfl
  · simp [entryBytes, listBytes, listBytes_append, listBytes_map_markRecord]
    ring

/-! ### C1: the byte-accounting invariant -/

theorem applyOp_preserves_bytes (c : BeaconCache) (op : CacheOp)
    (h : c.numBytesInCache = totalBytes c.entries) :
    (applyOp c op).numBytesInCache = totalBytes (applyOp c op).entries := by
  cases op with
  | addEvent k ts data =>
    simp only [applyOp, addEventData]
    cases hl : lookupEntry c.entries k with
    | none =>
      simp [totalBytes_append_single, h, entryBytes, emptyEntry, listBytes,
        newRecord, payloadBytes]
    | some e =>
      rw [totalBytes_setEntry _ _ _ _ hl]
      simp [h, entryBytes, listBytes_append, listBytes, newRecord, payloadBytes]
      ring
  | addAction k ts data =>
    simp only [applyOp, addActionData]
    cases hl : lookupEntry c.entries k with
    | none =>
      simp [totalBytes_append_single, h, entryBytes, emptyEntry, listBytes,
        newRecord, payloadBytes]
    | some e =>
      rw [totalBytes_setEntry _ _ _ _ hl]
      simp [h, entryBytes, listBytes_append, listBytes, newRecord, payloadBytes]
      ring
  | delete k =>
    simp only [applyOp, deleteCacheEntry]
    cases hl : lookupEntry c.entries k with
    | none => exact h
    | some e =>
      rw [totalBytes_removeEntry _ _ _ hl]
      simp [h]
  | evictByAge k minTs =>
    simp only [applyOp, evictRecordsByAge]
    cases hl : lookupEntry c.entries k with
    | none => exact h
    | some e =>
      rw [totalBytes_setEntry _ _ _ _ hl]
      have hE := listBytes_takeWhile_add_dropWhile (recordOlderThan minTs) e.eventData
      have hA := listBytes_takeWhile_add_dropWhile (recordOlderThan minTs) e.actionData
      simp only [entryBytes] at *
      simp [h]
      omega
  | evictByNumber k n =>
    simp only [applyOp, evictRecordsByNumber]
    cases hl : lookupEntry c.entries k with
    | none => exact h
    | some e =>
      rw [totalBytes_setEntry _ _ _ _ hl]
      have hE := listBytes_take_add_drop (min n e.eventData.length) e.eventData
      have hA := listBytes_take_add_drop (min (n - min n e.eventData.length)
        e.actionData.length) e.actionData
      simp only [entryBytes] at *
      simp [h]
      omega
  | getChunk k pfx maxSize d =>
    simp only [applyOp, getNextBeaconChunk]
    cases hl : lookupEntry c.entries k with
    | none => exact h
    | some e =>
      by_cases he : entryIsEmpty e
      · simp [he, h]
      · simp only [he, if_neg, Bool.false_eq_true, if_false]
        rw [totalBytes_setEntry _ _ _ _ hl]
        have hsplit := listBytes_chunkParts pfx d maxSize (snapshotEntry e).sendingPending
        have hsnap := entryBytes_snapshotEntry e
        simp only [entryBytes] at *
        simp [h, listBytes_append]
        omega
  | removeChunked k =>
    simp only [applyOp, removeChunkedData]
    cases hl : lookupEntry c.entries k with
    | none => exact h
    | some e =>
      rw [totalBytes_setEntry _ _ _ _ hl]
      simp [h, entryBytes, listBytes]
      ring
  | resetChunked k =>
    simp only [applyOp, resetChunkedData]
    cases hl : lookupEntry c.entries k with
    | none => exact h
    | some e =>
      rw [totalBytes_setEntry _ _ _ _ hl]
      simp [h, entryBytes, listBytes, listBytes_append, listBytes_map_unmarkRecord]
      ring

theorem foldl_preserves_bytes (ops : List CacheOp) :
    ∀ c : BeaconCache, c.numBytesInCache = totalBytes c.entries →
      (ops.foldl applyOp c).numBytesInCache = totalBytes (ops.foldl applyOp c).entries := by
  induction ops with
  | nil => intro c h; exact h
  | cons op rest ih =>
    intro c h
    exact ih (applyOp c op) (applyOp_preserves_bytes c op h)

/-- C1: for every sequence of insertion, eviction, deletion, commit
(`removeChunkedData`) and reset operations starting from the empty cache
(chunk retrieval included as well), `getNumBytesInCache()` equals the sum of
the payload lengths of all records currently held — un-sent sequences plus
sending-copy sequences — across all keys. -/
theorem runOps_numBytes_eq_totalBytes (ops : List CacheOp) :
    getNumBytesInCache (runOps ops) = totalBytes (runOps ops).entries :=
  foldl_preserves_bytes ops emptyCache rfl

/-- C5: for every key with an entry, `evictRecordsByAge` drops from the front
of each un-sent stream exactly the leading records with `timestamp < minTs`,
stopping at the first that does not qualify; the sending copy and the
snapshot flag are untouched; the return value is the number of evicted
records and the global byte total decreases by their payload sizes. -/
theorem evictRecordsByAge_spec (c : BeaconCache) (k : Int) (minTs : Int)
    (e : BeaconCacheEntry) (h : lookupEntry c.entries k = some e) :
    ∃ e2, lookupEntry (evictRecordsByAge c k minTs).2.entries k = some e2 ∧
      e2.eventData = e.eventData.dropWhile (recordOlderThan minTs) ∧
      e2.actionData = e.actionData.dropWhile (recordOlderThan minTs) ∧
      e2.sendingChunked = e.sendingChunked ∧
      e2.sendingPending = e.sendingPending ∧
      e2.hasSendingCopy = e.hasSendingCopy ∧
      (evictRecordsByAge c k minTs).1 =
        (e.eventData.takeWhile (recordOlderThan minTs)).length +
          (e.actionData.takeWhile (recordOlderThan minTs)).length ∧
      getNumBytesInCache (evictRecordsByAge c k minTs).2 =
        getNumBytesInCache c -
          (listBytes (e.eventData.takeWhile (recordOlderThan minTs)) +
            listBytes (e.actionData.takeWhile (recordOlderThan minTs))) := by
  refine ⟨{ e with
            eventData := e.eventData.dropWhile (recordOlderThan minTs),
            actionData := e.actionData.dropWhile (recordOlderThan minTs) },
    ?_, rfl, rfl, rfl, rfl, rfl, ?_, ?_⟩
  · simp only [evictRecordsByAge, h]
    exact lookupEntry_setEntry_self _ _ _ _ h
  · simp only [evictRecordsByAge, h]
  · simp only [evictRecordsByAge, h, getNumBytesInCache]

/-- A concrete instance of `evictRecordsByAge_spec`: a cache with two event
records for key 1, of timestamps 5 and 50, evicted with minimum timestamp
10. -/
theorem evictRecordsByAge_spec_witness :
    lookupEntry (runOps [CacheOp.addEvent 1 5 (toChars "a"),
        CacheOp.addEvent 1 50 (toChars "b")]).entries 1 =
      some ⟨[⟨5, toChars "a", false⟩, ⟨50, toChars "b", false⟩], [], [], [], false⟩ ∧
    (∃ e2, lookupEntry (evictRecordsByAge (runOps [CacheOp.addEvent 1 5 (toChars "a"),
          CacheOp.addEvent 1 50 (toChars "b")]) 1 10).2.entries 1 = some e2 ∧
      e2.eventData = ([⟨5, toChars "a", false⟩, ⟨50, toChars "b", false⟩] :
          List BeaconCacheRecord).dropWhile (recordOlderThan 10) ∧
      e2.actionData = ([] : List BeaconCacheRecord).dropWhile (recordOlderThan 10) ∧
      e2.sendingChunked = [] ∧
      e2.sendingPending = [] ∧
      e2.hasSendingCopy = false ∧
      (evictRecordsByAge (runOps [CacheOp.addEvent 1 5 (toChars "a"),
          CacheOp.addEvent 1 50 (toChars "b")]) 1 10).1 =
        (([⟨5, toChars "a", false⟩, ⟨50, toChars "b", false⟩] :
            List BeaconCacheRecord).takeWhile (recordOlderThan 10)).length +
          (([] : List BeaconCacheRecord).takeWhile (recordOlderThan 10)).length ∧
      getNumBytesInCache (evictRecordsByAge (runOps [CacheOp.addEvent 1 5 (toChars "a"),
          CacheOp.addEvent 1 50 (toChars "b")]) 1 10).2 =
        getNumBytesInCache (runOps [CacheOp.addEvent 1 5 (toChars "a"),
          CacheOp.addEvent 1 50 (toChars "b")]) -
          (listBytes (([⟨5, toChars "a", false⟩, ⟨50, toChars "b", false⟩] :
              List BeaconCacheRecord).takeWhile (recordOlderThan 10)) +
            listBytes (([] : List BeaconCacheRecord).takeWhile (recordOlderThan 10)))) :=
  ⟨by decide,
    evictRecordsByAge_spec
      (runOps [CacheOp.addEvent 1 5 (toChars "a"), CacheOp.addEvent 1 50 (toChars "b")])
      1 10
      ⟨[⟨5, toChars "a", false⟩, ⟨50, toChars "b", false⟩], [], [], [], false⟩
      (by decide)⟩

/-- C6: for a key with no entry, `deleteCacheEntry` leaves the cache
unchanged, both eviction operations return 0 and change nothing, and
`getNextBeaconChunk` returns the empty string with the cache unchanged;
since the state is unchanged the results repeat on successive calls. -/
theorem absentKey_noops (c : BeaconCache) (k : Int) (t : Int) (n : Nat)
    (pfx d : List Char) (m : Nat) (h : lookupEntry c.entries k = none) :
    deleteCacheEntry c k = c ∧
    evictRecordsByAge c k t = (0, c) ∧
    evictRecordsByNumber c k n = (0, c) ∧
    getNextBeaconChunk c k pfx m d = ([], c) := by
  refine ⟨?_, ?_, ?_, ?_⟩ <;>
    simp only [deleteCacheEntry, evictRecordsByAge, evictRecordsByNumber,
      getNextBeaconChunk, h]

/-- A concrete instance of `absentKey_noops`: key 7 on the empty cache. -/
theorem absentKey_noops_witness :
    lookupEntry emptyCache.entries 7 = none ∧
    (deleteCacheEntry emptyCache 7 = emptyCache ∧
      evictRecordsByAge emptyCache 7 3 = (0, emptyCache) ∧
      evictRecordsByNumber emptyCache 7 2 = (0, emptyCache) ∧
      getNextBeaconChunk emptyCache 7 (toChars "p") 10 (toChars "&") =
        ([], emptyCache)) :=
  ⟨by decide, absentKey_noops emptyCache 7 3 2 (toChars "p") (toChars "&") 10 (by decide)⟩

/-- C7: from the empty cache, after `addEventData(1, 100, "e1")` and
`addEventData(1, 200, "e2")`, `getNextBeaconChunk(1, "pfx", 1000, "&")`
returns `"pfxe1&e2"`; after `removeChunkedData(1)`, `isEmpty(1)` is true and
`getNumBytesInCache()` is 0. -/
theorem scenario_insert_chunk_remove :
    (getNextBeaconChunk (addEventData (addEventData emptyCache 1 100
        (toChars "e1")) 1 200 (toChars "e2")) 1 (toChars "pfx") 1000
        (toChars "&")).1 = toChars "pfxe1&e2" ∧
    isEmpty (removeChunkedData (getNextBeaconChunk (addEventData (addEventData
        emptyCache 1 100 (toChars "e1")) 1 200 (toChars "e2")) 1 (toChars "pfx")
        1000 (toChars "&")).2 1) 1 = true ∧
    getNumBytesInCache (removeChunkedData (getNextBeaconChunk (addEventData
        (addEventData emptyCache 1 100 (toChars "e1")) 1 200 (toChars "e2")) 1
        (toChars "pfx") 1000 (toChars "&")).2 1) = 0 := by
  decide

/-! ### The text assembled by a chunk -/

/-- Payloads of records appended after the first one: each is preceded by the
delimiter. -/
def joinTail (d : List Char) : List BeaconCacheRecord → List Char
  | [] => []
  | r :: rs => d ++ r.payload ++ joinTail d rs

/-- Delimiter-separated payloads of a list of records. -/
def joinPayloads (d : List Char) : List BeaconCacheRecord → List Char
  | [] => []
  | r :: rs => r.payload ++ joinTail d rs

theorem chunkLoop_text (d : List Char) (m : Nat) (l : List BeaconCacheRecord) :
    ∀ acc : List Char,
      (chunkLoop d m acc l).1 = acc ++ joinTail d (chunkLoop d m acc l).2.1 := by
  induction l with
  | nil => intro acc; simp [chunkLoop, joinTail]
  | cons r rs ih =>
    intro acc
    by_cases hlt : acc.length + d.length + r.payload.length < m
    · simp only [chunkLoop, if_pos hlt]
      rw [ih (acc ++ d ++ r.payload)]
      simp [joinTail]
    · simp [chunkLoop, hlt, joinTail]

theorem buildChunk_text (pfx d : List Char) (m : Nat)
    (l : List BeaconCacheRecord) :
    (buildChunk pfx d m l).1 = pfx ++ joinPayloads d (buildChunk pfx d m l).2.1 := by
  cases l with
  | nil => simp [buildChunk, joinPayloads]
  | cons r rs =>
    simp only [buildChunk]
    rw [chunkLoop_text d m rs (pfx ++ r.payload)]
    simp [joinPayloads]

theorem buildChunk_taken_cons (pfx d : List Char) (m : Nat) (r : BeaconCacheRecord)
    (rs : List BeaconCacheRecord) :
    (buildChunk pfx d m (r :: rs)).2.1 =
      r :: (chunkLoop d m (pfx ++ r.payload) rs).2.1 := rfl

theorem chunkLoop_stop (d : List Char) (m : Nat) (l : List BeaconCacheRecord) :
    ∀ (acc : List Char) (r : BeaconCacheRecord) (rs : List BeaconCacheRecord),
      (chunkLoop d m acc l).2.2 = r :: rs →
      m ≤ (chunkLoop d m acc l).1.length + d.length + r.payload.length := by
  induction l with
  | nil => intro acc r rs h; simp [chunkLoop] at h
  | cons r0 rs0 ih =>
    intro acc r rs h
    by_cases hlt : acc.length + d.length + r0.payload.length < m
    · simp only [chunkLoop, if_pos hlt] at h ⊢
      exact ih (acc ++ d ++ r0.payload) r rs h
    · simp only [chunkLoop, if_neg hlt] at h ⊢
      obtain ⟨rfl, rfl⟩ := List.cons.inj h
      omega

theorem chunkLoop_greedy_all (d : List Char) (m : Nat) (l : List BeaconCacheRecord) :
    ∀ (acc : List Char) (t1 : List BeaconCacheRecord) (r : BeaconCacheRecord)
      (t2 : List BeaconCacheRecord),
      (chunkLoop d m acc l).2.1 = t1 ++ r :: t2 →
      (acc ++ joinTail d t1).length + d.length + r.payload.length < m := by
  induction l with
  | nil => intro acc t1 r t2 h; simp [chunkLoop] at h
  | cons r0 rs0 ih =>
    intro acc t1 r t2 h
    by_cases hlt : acc.length + d.length + r0.payload.length < m
    · simp only [chunkLoop, if_pos hlt] at h
      cases t1 with
      | nil =>
        simp only [List.nil_append] at h
        obtain ⟨rfl, -⟩ := List.cons.inj h
        simpa [joinTail] using hlt
      | cons rh t1tl =>
        simp only [List.cons_append] at h
        obtain ⟨rfl, htl⟩ := List.cons.inj h
        have := ih (acc ++ d ++ r0.payload) t1tl r t2 htl
        simp only [joinTail, List.length_append] at this ⊢
        omega
    · simp only [chunkLoop, if_neg hlt] at h
      simp at h

theorem buildChunk_greedy (pfx d : List Char) (m : Nat)
    (l : List BeaconCacheRecord) (t1 : List BeaconCacheRecord)
    (r : BeaconCacheRecord) (t2 : List BeaconCacheRecord)
    (h : (buildChunk pfx d m l).2.1 = t1 ++ r :: t2) (hne : t1 ≠ []) :
    (pfx ++ joinPayloads d t1).length + d.length + r.payload.length < m := by
  cases l with
  | nil => simp [buildChunk] at h
  | cons r0 rs0 =>
    rw [buildChunk_taken_cons] at h
    cases t1 with
    | nil => exact absurd rfl hne
    | cons rh t1tl =>
      simp only [List.cons_append] at h
      obtain ⟨rfl, htl⟩ := List.cons.inj h
      have := chunkLoop_greedy_all d m rs0 (pfx ++ r0.payload) t1tl r t2 htl
      simp only [joinPayloads, List.length_append, joinTail] at this ⊢
      omega

/-- C3: for a key with an entry holding data, `getNextBeaconChunk` returns the
prefix followed by the payloads of the next records of the sending copy in
order, delimiter-separated and never split; records are appended only while
the result stays shorter than `maxSize` (each appended record after the first
passed that test, and the first record left out would have reached it); and at
least one payload is included whenever the sending copy is non-empty, even if
it alone exceeds `maxSize`. -/
theorem getNextBeaconChunk_chunk_spec (c : BeaconCache) (k : Int)
    (e : BeaconCacheEntry) (pfx d : List Char) (m : Nat)
    (he : lookupEntry c.entries k = some e)
    (hne : entryIsEmpty e = false) :
    ∃ taken rest,
      taken ++ rest = (snapshotEntry e).sendingPending ∧
      (getNextBeaconChunk c k pfx m d).1 = pfx ++ joinPayloads d taken ∧
      ((snapshotEntry e).sendingPending ≠ [] → taken ≠ []) ∧
      (∀ r rs, rest = r :: rs →
        m ≤ (getNextBeaconChunk c k pfx m d).1.length + d.length + r.payload.length) ∧
      (∀ t1 r t2, taken = t1 ++ r :: t2 → t1 ≠ [] →
        (pfx ++ joinPayloads d t1).length + d.length + r.payload.length < m) := by
  have hout : (getNextBeaconChunk c k pfx m d).1 =
      (buildChunk pfx d m (snapshotEntry e).sendingPending).1 := by
    simp [getNextBeaconChunk, he, hne]
  refine ⟨(buildChunk pfx d m (snapshotEntry e).sendingPending).2.1,
    (buildChunk pfx d m (snapshotEntry e).sendingPending).2.2,
    buildChunk_split _ _ _ _, ?_, ?_, ?_, ?_⟩
  · rw [hout, buildChunk_text]
  · intro hp
    cases hsp : (snapshotEntry e).sendingPending with
    | nil => exact absurd hsp hp
    | cons r0 rs0 => rw [buildChunk_taken_cons]; simp
  · intro r rs hres
    rw [hout]
    cases hsp : (snapshotEntry e).sendingPending with
    | nil =>
      rw [hsp] at hres
      simp [buildChunk] at hres
    | cons r0 rs0 =>
      rw [hsp] at hres
      rw [show (buildChunk pfx d m (r0 :: rs0)).2.2 =
        (chunkLoop d m (pfx ++ r0.payload) rs0).2.2 from rfl] at hres
      rw [show (buildChunk pfx d m (r0 :: rs0)).1 =
        (chunkLoop d m (pfx ++ r0.payload) rs0).1 from rfl]
      exact chunkLoop_stop d m rs0 (pfx ++ r0.payload) r rs hres
  · intro t1 r t2 ht hne1
    exact buildChunk_greedy pfx d m _ t1 r t2 ht hne1

/-- Cache used by the chunking witnesses: two event records for key 1. -/
def chunkWitnessCache : BeaconCache :=
  runOps [CacheOp.addEvent 1 100 (toChars "e1"), CacheOp.addEvent 1 200 (toChars "e2")]

/-- The entry held by `chunkWitnessCache` for key 1. -/
def chunkWitnessEntry : BeaconCacheEntry :=
  ⟨[⟨100, toChars "e1", false⟩, ⟨200, toChars "e2", false⟩], [], [], [], false⟩

/-- A concrete instance of `getNextBeaconChunk_chunk_spec`: two two-character
payloads, `maxSize` 4, so only the first record fits and the second is left
pending. -/
theorem getNextBeaconChunk_chunk_spec_witness :
    lookupEntry chunkWitnessCache.entries 1 = some chunkWitnessEntry ∧
    entryIsEmpty chunkWitnessEntry = false ∧
    (∃ taken rest,
      taken ++ rest = (snapshotEntry chunkWitnessEntry).sendingPending ∧
      (getNextBeaconChunk chunkWitnessCache 1 (toChars "p") 4 (toChars "&")).1 =
        toChars "p" ++ joinPayloads (toChars "&") taken ∧
      ((snapshotEntry chunkWitnessEntry).sendingPending ≠ [] → taken ≠ []) ∧
      (∀ r rs, rest = r :: rs →
        4 ≤ (getNextBeaconChunk chunkWitnessCache 1 (toChars "p") 4
            (toChars "&")).1.length + (toChars "&").length + r.payload.length) ∧
      (∀ t1 r t2, taken = t1 ++ r :: t2 → t1 ≠ [] →
        (toChars "p" ++ joinPayloads (toChars "&") t1).length +
          (toChars "&").length + r.payload.length < 4)) :=
  ⟨by decide, by decide,
    getNextBeaconChunk_chunk_spec chunkWitnessCache 1 chunkWitnessEntry
      (toChars "p") (toChars "&") 4 (by decide) (by decide)⟩

/-! ### Drain sessions: repeated chunk calls -/

/-- Call `getNextBeaconChunk` once per parameter triple (prefix, maxSize,
delimiter), collecting the returned chunks. -/
def runChunkCalls (c : BeaconCache) (k : Int) :
    List (List Char × Nat × List Char) → List (List Char) × BeaconCache
  | [] => ([], c)
  | p :: ps =>
    let out := getNextBeaconChunk c k p.1 p.2.1 p.2.2
    let rest := runChunkCalls out.2 k ps
    (out.1 :: rest.1, rest.2)

/-- The records a drain session for one entry works through: already-chunked,
then pending, then the un-sent records as the snapshot would mark them. -/
def sessionRecords (e : BeaconCacheEntry) : List BeaconCacheRecord :=
  e.sendingChunked ++ e.sendingPending ++ (e.eventData ++ e.actionData).map markRecord

theorem snapshotEntry_sendingChunked (e : BeaconCacheEntry) :
    (snapshotEntry e).sendingChunked = e.sendingChunked := by
  unfold snapshotEntry
  split <;> rfl

theorem sessionRecords_snapshotEntry (e : BeaconCacheEntry) :
    sessionRecords (snapshotEntry e) = sessionRecords e := by
  unfold snapshotEntry
  split
  · rfl
  · simp [sessionRecords]

theorem entryIsEmpty_false_of_records (e : BeaconCacheEntry)
    (h : sessionRecords e ≠ []) : entryIsEmpty e = false := by
  cases hb : entryIsEmpty e with
  | false => rfl
  | true =>
    exfalso
    apply h
    simp only [entryIsEmpty, Bool.and_eq_true, List.isEmpty_iff] at hb
    obtain ⟨⟨⟨h1, h2⟩, h3⟩, h4⟩ := hb
    simp [sessionRecords, h1, h2, h3, h4]

theorem getNextBeaconChunk_session_step (c : BeaconCache) (k : Int)
    (e1 : BeaconCacheEntry) (pfx d : List Char) (m : Nat)
    (h : lookupEntry c.entries k = some e1)
    (hne : sessionRecords e1 ≠ []) :
    ∃ e3 taken,
      lookupEntry (getNextBeaconChunk c k pfx m d).2.entries k = some e3 ∧
      (getNextBeaconChunk c k pfx m d).1 = pfx ++ joinPayloads d taken ∧
      e3.sendingChunked = e1.sendingChunked ++ taken ∧
      sessionRecords e3 = sessionRecords e1 := by
  have hee := entryIsEmpty_false_of_records e1 hne
  refine ⟨{ snapshotEntry e1 with
            sendingChunked := (snapshotEntry e1).sendingChunked ++
              (buildChunk pfx d m (snapshotEntry e1).sendingPending).2.1,
            sendingPending :=
              (buildChunk pfx d m (snapshotEntry e1).sendingPending).2.2 },
    (buildChunk pfx d m (snapshotEntry e1).sendingPending).2.1, ?_, ?_, ?_, ?_⟩
  · simp only [getNextBeaconChunk, h, hee, Bool.false_eq_true, if_false]
    exact lookupEntry_setEntry_self _ _ _ _ h
  · simp only [getNextBeaconChunk, h, hee, Bool.false_eq_true, if_false]
    exact buildChunk_text _ _ _ _
  · simp [snapshotEntry_sendingChunked]
  · have hsplit := buildChunk_split pfx d m (snapshotEntry e1).sendingPending
    rw [← sessionRecords_snapshotEntry e1]
    simp only [sessionRecords]
    conv_rhs => rw [← hsplit]
    simp [List.append_assoc]

theorem runChunkCalls_spec (ps : List (List Char × Nat × List Char)) :
    ∀ (c : BeaconCache) (k : Int) (e1 : BeaconCacheEntry),
      lookupEntry c.entries k = some e1 →
      sessionRecords e1 ≠ [] →
      ∃ segs e2,
        segs.length = ps.length ∧
        (runChunkCalls c k ps).1 =
          List.zipWith (fun p seg => p.1 ++ joinPayloads p.2.2 seg) ps segs ∧
        lookupEntry (runChunkCalls c k ps).2.entries k = some e2 ∧
        e2.sendingChunked = e1.sendingChunked ++ segs.flatten ∧
        sessionRecords e2 = sessionRecords e1 := by
  induction ps with
  | nil =>
    intro c k e1 h hne
    exact ⟨[], e1, rfl, rfl, h, by simp, rfl⟩
  | cons p ps ih =>
    intro c k e1 h hne
    obtain ⟨e3, taken, h1, h2, h3, h4⟩ :=
      getNextBeaconChunk_session_step c k e1 p.1 p.2.2 p.2.1 h hne
    have hne3 : sessionRecords e3 ≠ [] := by rw [h4]; exact hne
    obtain ⟨segs, e2, g1, g2, g3, g4, g5⟩ :=
      ih (getNextBeaconChunk c k p.1 p.2.1 p.2.2).2 k e3 h1 hne3
    refine ⟨taken :: segs, e2, by simp [g1], ?_, ?_, ?_, g5.trans h4⟩
    · show (getNextBeaconChunk c k p.1 p.2.1 p.2.2).1 ::
        (runChunkCalls (getNextBeaconChunk c k p.1 p.2.1 p.2.2).2 k ps).1 = _
      rw [h2, g2]
      rfl
    · exact g3
    · rw [g4, h3]
      simp [List.append_assoc]

/-- C4: within one drain session (no commit or reset in between), the first
`getNextBeaconChunk` call snapshots all currently un-sent records into the
sending copy (events before actions, marked for sending), and every later
call keeps consuming the same sending copy without re-snapshotting: each
returned chunk is its prefix followed by the payloads of one further segment,
and the segments joined in order form a prefix of the snapshot — original
insertion order, no record included twice. -/
theorem drain_session_spec (c : BeaconCache) (k : Int) (e : BeaconCacheEntry)
    (ps : List (List Char × Nat × List Char))
    (he : lookupEntry c.entries k = some e)
    (_hflag : e.hasSendingCopy = false)
    (hch : e.sendingChunked = []) (hpe : e.sendingPending = [])
    (hne : e.eventData ++ e.actionData ≠ []) :
    ∃ segs e2 leftover,
      segs.length = ps.length ∧
      (runChunkCalls c k ps).1 =
        List.zipWith (fun p seg => p.1 ++ joinPayloads p.2.2 seg) ps segs ∧
      lookupEntry (runChunkCalls c k ps).2.entries k = some e2 ∧
      e2.sendingChunked = segs.flatten ∧
      segs.flatten ++ leftover = (e.eventData ++ e.actionData).map markRecord := by
  have hs : sessionRecords e = (e.eventData ++ e.actionData).map markRecord := by
    simp [sessionRecords, hch, hpe]
  have hsne : sessionRecords e ≠ [] := by
    rw [hs]
    simpa using hne
  obtain ⟨segs, e2, g1, g2, g3, g4, g5⟩ := runChunkCalls_spec ps c k e he hsne
  have g4s : e2.sendingChunked = segs.flatten := by rw [g4, hch]; simp
  refine ⟨segs, e2,
    e2.sendingPending ++ (e2.eventData ++ e2.actionData).map markRecord,
    g1, g2, g3, g4s, ?_⟩
  have hrec := g5.trans hs
  rw [sessionRecords, g4s] at hrec
  rw [← hrec]
  simp [List.append_assoc]

/-- A concrete instance of `drain_session_spec`: two records drained by two
calls, the first sized so that only one record fits. -/
theorem drain_session_spec_witness :
    lookupEntry chunkWitnessCache.entries 1 = some chunkWitnessEntry ∧
    chunkWitnessEntry.hasSendingCopy = false ∧
    chunkWitnessEntry.sendingChunked = [] ∧
    chunkWitnessEntry.sendingPending = [] ∧
    chunkWitnessEntry.eventData ++ chunkWitnessEntry.actionData ≠ [] ∧
    (∃ segs e2 leftover,
      segs.length = ([(toChars "p", 4, toChars "&"),
        (toChars "q", 50, toChars ",")] :
          List (List Char × Nat × List Char)).length ∧
      (runChunkCalls chunkWitnessCache 1 [(toChars "p", 4, toChars "&"),
          (toChars "q", 50, toChars ",")]).1 =
        List.zipWith (fun p seg => p.1 ++ joinPayloads p.2.2 seg)
          [(toChars "p", 4, toChars "&"), (toChars "q", 50, toChars ",")] segs ∧
      lookupEntry (runChunkCalls chunkWitnessCache 1 [(toChars "p", 4, toChars "&"),
          (toChars "q", 50, toChars ",")]).2.entries 1 = some e2 ∧
      e2.sendingChunked = segs.flatten ∧
      segs.flatten ++ leftover =
        (chunkWitnessEntry.eventData ++ chunkWitnessEntry.actionData).map markRecord) :=
  ⟨by decide, by decide, by decide, by decide, by decide,
    drain_session_spec chunkWitnessCache 1 chunkWitnessEntry
      [(toChars "p", 4, toChars "&"), (toChars "q", 50, toChars ",")]
      (by decide) (by decide) (by decide) (by decide) (by decide)⟩

/-! ### Reset after a drain: supporting lemmas -/

theorem unmark_mark_of_unmarked (r : BeaconCacheRecord)
    (h : r.markedForSending = false) : unmarkRecord (markRecord r) = r := by
  obtain ⟨ts, pl, fl⟩ := r
  simp only at h
  simp [markRecord, unmarkRecord, h]

theorem map_unmark_map_mark (l : List BeaconCacheRecord)
    (h : ∀ r ∈ l, r.markedForSending = false) :
    (l.map markRecord).map unmarkRecord = l := by
  induction l with
  | nil => rfl
  | cons r rest ih =>
    simp only [List.map_cons]
    rw [unmark_mark_of_unmarked r (h r (by simp)),
      ih (fun x hx => h x (by simp [hx]))]

theorem lookupEntry_append_single_none (es : List (Int × BeaconCacheEntry))
    (kj k : Int) (e : BeaconCacheEntry) (hk : kj ≠ k)
    (h : lookupEntry es k = none) :
    lookupEntry (es ++ [(kj, e)]) k = none := by
  induction es with
  | nil => simp [lookupEntry, hk]
  | cons pr rest ih =>
    obtain ⟨k2, e3⟩ := pr
    by_cases h2 : k2 = k
    · subst h2
      rw [lookupEntry_cons_self] at h
      exact absurd h (by simp)
    · rw [List.cons_append, lookupEntry_cons_ne _ _ _ _ h2] at *
      exact ih h

theorem lookupEntry_addEventData_same (c : BeaconCache) (k : Int) (ts : Int)
    (data : List Char) (e1 : BeaconCacheEntry)
    (h : lookupEntry c.entries k = some e1) :
    lookupEntry (addEventData c k ts data).entries k =
      some { e1 with eventData := e1.eventData ++ [newRecord ts data] } := by
  simp only [addEventData, h]
  exact lookupEntry_setEntry_self _ _ _ _ h

theorem lookupEntry_addActionData_same (c : BeaconCache) (k : Int) (ts : Int)
    (data : List Char) (e1 : BeaconCacheEntry)
    (h : lookupEntry c.entries k = some e1) :
    lookupEntry (addActionData c k ts data).entries k =
      some { e1 with actionData := e1.actionData ++ [newRecord ts data] } := by
  simp only [addActionData, h]
  exact lookupEntry_setEntry_self _ _ _ _ h

theorem lookupEntry_addEventData_ne (c : BeaconCache) (kj k : Int) (ts : Int)
    (data : List Char) (hk : kj ≠ k) :
    lookupEntry (addEventData c kj ts data).entries k = lookupEntry c.entries k := by
  simp only [addEventData]
  cases hl : lookupEntry c.entries kj with
  | none =>
    cases hx : lookupEntry c.entries k with
    | none => exact lookupEntry_append_single_none _ _ _ _ hk hx
    | some e1 => exact lookupEntry_append_of_some _ _ _ _ hx
  | some e => exact lookupEntry_setEntry_ne _ _ _ _ hk

theorem lookupEntry_addActionData_ne (c : BeaconCache) (kj k : Int) (ts : Int)
    (data : List Char) (hk : kj ≠ k) :
    lookupEntry (addActionData c kj ts data).entries k = lookupEntry c.entries k := by
  simp only [addActionData]
  cases hl : lookupEntry c.entries kj with
  | none =>
    cases hx : lookupEntry c.entries k with
    | none => exact lookupEntry_append_single_none _ _ _ _ hk hx
    | some e1 => exact lookupEntry_append_of_some _ _ _ _ hx
  | some e => exact lookupEntry_setEntry_ne _ _ _ _ hk

theorem foldl_inserts_preserve (mid : List CacheOp) :
    ∀ (c : BeaconCache) (k : Int) (e1 : BeaconCacheEntry),
      (∀ op ∈ mid, isInsertOp op = true) →
      lookupEntry c.entries k = some e1 →
      ∃ e2 newE newA,
        lookupEntry (mid.foldl applyOp c).entries k = some e2 ∧
        e2.eventData = e1.eventData ++ newE ∧
        e2.actionData = e1.actionData ++ newA ∧
        e2.sendingChunked = e1.sendingChunked ∧
        e2.sendingPending = e1.sendingPending ∧
        e2.hasSendingCopy = e1.hasSendingCopy ∧
        (∀ r ∈ newE, r.markedForSending = false) ∧
        (∀ r ∈ newA, r.markedForSending = false) := by
  induction mid with
  | nil =>
    intro c k e1 _ h
    exact ⟨e1, [], [], h, by simp, by simp, rfl, rfl, rfl, by simp, by simp⟩
  | cons op rest ih =>
    intro c k e1 hins h
    have hop : isInsertOp op = true := hins op (by simp)
    have hrest : ∀ op2 ∈ rest, isInsertOp op2 = true :=
      fun op2 h2 => hins op2 (by simp [h2])
    cases op with
    | addEvent kj ts data =>
      simp only [List.foldl_cons, applyOp]
      by_cases hk : kj = k
      · subst hk
        obtain ⟨e2, nE, nA, g1, g2, g3, g4, g5, g6, g7, g8⟩ :=
          ih (addEventData c kj ts data) kj _ hrest
            (lookupEntry_addEventData_same c kj ts data e1 h)
        refine ⟨e2, newRecord ts data :: nE, nA, g1, ?_, g3, g4, g5, g6, ?_, g8⟩
        · rw [g2]
          simp
        · intro r hr
          rcases List.mem_cons.mp hr with hr1 | hr2
          · rw [hr1]
            rfl
          · exact g7 r hr2
      · obtain ⟨e2, nE, nA, g1, g2, g3, g4, g5, g6, g7, g8⟩ :=
          ih (addEventData c kj ts data) k e1 hrest
            (by rw [lookupEntry_addEventData_ne c kj k ts data hk]; exact h)
        exact ⟨e2, nE, nA, g1, g2, g3, g4, g5, g6, g7, g8⟩
    | addAction kj ts data =>
      simp only [List.foldl_cons, applyOp]
      by_cases hk : kj = k
      · subst hk
        obtain ⟨e2, nE, nA, g1, g2, g3, g4, g5, g6, g7, g8⟩ :=
          ih (addActionData c kj ts data) kj _ hrest
            (lookupEntry_addActionData_same c kj ts data e1 h)
        refine ⟨e2, nE, newRecord ts data :: nA, g1, g2, ?_, g4, g5, g6, g7, ?_⟩
        · rw [g3]
          simp
        · intro r hr
          rcases List.mem_cons.mp hr with hr1 | hr2
          · rw [hr1]
            rfl
          · exact g8 r hr2
      · obtain ⟨e2, nE, nA, g1, g2, g3, g4, g5, g6, g7, g8⟩ :=
          ih (addActionData c kj ts data) k e1 hrest
            (by rw [lookupEntry_addActionData_ne c kj k ts data hk]; exact h)
        exact ⟨e2, nE, nA, g1, g2, g3, g4, g5, g6, g7, g8⟩
    | delete k2 => simp [isInsertOp] at hop
    | evictByAge k2 t2 => simp [isInsertOp] at hop
    | evictByNumber k2 n2 => simp [isInsertOp] at hop
    | getChunk k2 p2 m2 d2 => simp [isInsertOp] at hop
    | removeChunked k2 => simp [isInsertOp] at hop
    | resetChunked k2 => simp [isInsertOp] at hop

theorem getNextBeaconChunk_quiescent_state (c : BeaconCache) (k : Int)
    (e : BeaconCacheEntry) (pfx d : List Char) (m : Nat)
    (he : lookupEntry c.entries k = some e)
    (hflag : e.hasSendingCopy = false)
    (hch : e.sendingChunked = []) (hpe : e.sendingPending = []) :
    ∃ e1, lookupEntry (getNextBeaconChunk c k pfx m d).2.entries k = some e1 ∧
      e1.eventData = [] ∧ e1.actionData = [] ∧
      e1.sendingChunked ++ e1.sendingPending =
        (e.eventData ++ e.actionData).map markRecord := by
  by_cases hee : entryIsEmpty e = true
  · have hlists : e.eventData = [] ∧ e.actionData = [] ∧
        e.sendingChunked = [] ∧ e.sendingPending = [] := by
      simp only [entryIsEmpty, Bool.and_eq_true, List.isEmpty_iff] at hee
      exact ⟨hee.1.1.1, hee.1.1.2, hee.1.2, hee.2⟩
    refine ⟨e, ?_, hlists.1, hlists.2.1, ?_⟩
    · simp only [getNextBeaconChunk, he, hee, if_true]
    · simp [hlists.1, hlists.2.1, hlists.2.2.1, hlists.2.2.2]
  · have hee2 : entryIsEmpty e = false := eq_false_of_ne_true hee
    have hsnap : snapshotEntry e =
        { eventData := [], actionData := [], sendingChunked := [],
          sendingPending := (e.eventData ++ e.actionData).map markRecord,
          hasSendingCopy := true } := by
      simp [snapshotEntry, hflag, hch, hpe]
    refine ⟨{ snapshotEntry e with
              sendingChunked := (snapshotEntry e).sendingChunked ++
                (buildChunk pfx d m (snapshotEntry e).sendingPending).2.1,
              sendingPending :=
                (buildChunk pfx d m (snapshotEntry e).sendingPending).2.2 },
      ?_, ?_, ?_, ?_⟩
    · simp only [getNextBeaconChunk, he, hee2, Bool.false_eq_true, if_false]
      exact lookupEntry_setEntry_self _ _ _ _ he
    · rw [hsnap]
    · rw [hsnap]
    · have hsplit := buildChunk_split pfx d m (snapshotEntry e).sendingPending
      show (snapshotEntry e).sendingChunked ++
          (buildChunk pfx d m (snapshotEntry e).sendingPending).2.1 ++
          (buildChunk pfx d m (snapshotEntry e).sendingPending).2.2 = _
      rw [snapshotEntry_sendingChunked, hch, List.nil_append, hsplit, hsnap]

/-- C2: a `getNextBeaconChunk` call on a quiescent entry, followed by any
insertions and then `resetChunkedData`, loses and duplicates nothing: the
relocated records sit at the front of the un-sent data, in their original
relative order, ahead of any records inserted in between; every
`markedForSending` flag is cleared; the byte total is unchanged by the reset;
and with no insertions in between the entry's records are exactly the ones
it started with. -/
theorem getNextBeaconChunk_then_reset (c : BeaconCache) (k : Int)
    (e : BeaconCacheEntry) (pfx d : List Char) (m : Nat) (mid : List CacheOp)
    (he : lookupEntry c.entries k = some e)
    (hflag : e.hasSendingCopy = false)
    (hch : e.sendingChunked = []) (hpe : e.sendingPending = [])
    (hunm : ∀ r ∈ e.eventData ++ e.actionData, r.markedForSending = false)
    (hmid : ∀ op ∈ mid, isInsertOp op = true) :
    ∃ e2 e3,
      lookupEntry (mid.foldl applyOp
        (getNextBeaconChunk c k pfx m d).2).entries k = some e2 ∧
      lookupEntry (resetChunkedData (mid.foldl applyOp
        (getNextBeaconChunk c k pfx m d).2) k).entries k = some e3 ∧
      e3.eventData = (e.eventData ++ e.actionData) ++ e2.eventData ∧
      e3.actionData = e2.actionData ∧
      e3.sendingChunked = [] ∧
      e3.sendingPending = [] ∧
      e3.hasSendingCopy = false ∧
      (∀ r ∈ e3.eventData ++ e3.actionData, r.markedForSending = false) ∧
      getNumBytesInCache (resetChunkedData (mid.foldl applyOp
        (getNextBeaconChunk c k pfx m d).2) k) =
        getNumBytesInCache (mid.foldl applyOp (getNextBeaconChunk c k pfx m d).2) ∧
      (mid = [] →
        e3.eventData ++ e3.actionData ++ e3.sendingChunked ++ e3.sendingPending =
          e.eventData ++ e.actionData ++ e.sendingChunked ++ e.sendingPending) := by
  obtain ⟨e1, s1, s2, s3, s4⟩ :=
    getNextBeaconChunk_quiescent_state c k e pfx d m he hflag hch hpe
  obtain ⟨e2, nE, nA, g1, g2, g3, g4, g5, g6, g7, g8⟩ :=
    foldl_inserts_preserve mid _ k e1 hmid s1
  have hreset_ev :
      (e2.sendingChunked ++ e2.sendingPending).map unmarkRecord ++ e2.eventData =
        (e.eventData ++ e.actionData) ++ e2.eventData := by
    rw [g4, g5, s4, map_unmark_map_mark _ hunm]
  refine ⟨e2,
    { e2 with
      eventData := (e2.sendingChunked ++ e2.sendingPending).map unmarkRecord ++
        e2.eventData,
      sendingChunked := [], sendingPending := [], hasSendingCopy := false },
    g1, ?_, hreset_ev, rfl, rfl, rfl, rfl, ?_, ?_, ?_⟩
  · simp only [resetChunkedData, g1]
    exact lookupEntry_setEntry_self _ _ _ _ g1
  · intro r hr
    simp only [hreset_ev] at hr
    rw [g2, s2, List.nil_append, g3, s3, List.nil_append] at hr
    simp only [List.append_assoc, List.mem_append] at hr
    rcases hr with hr | hr | hr | hr
    · exact hunm r (by simp [hr])
    · exact hunm r (by simp [hr])
    · exact g7 r hr
    · exact g8 r hr
  · simp [resetChunkedData, g1, getNumBytesInCache]
  · intro hm
    subst hm
    have he12 : e1 = e2 := Option.some.inj (s1.symm.trans g1)
    subst he12
    simp only [hreset_ev]
    rw [s2, s3, hch, hpe]
    simp

/-- A concrete instance of `getNextBeaconChunk_then_reset`: drain key 1 with a
small `maxSize`, insert one more event record, then reset. -/
theorem getNextBeaconChunk_then_reset_witness :
    lookupEntry chunkWitnessCache.entries 1 = some chunkWitnessEntry ∧
    chunkWitnessEntry.hasSendingCopy = false ∧
    chunkWitnessEntry.sendingChunked = [] ∧
    chunkWitnessEntry.sendingPending = [] ∧
    (∀ r ∈ chunkWitnessEntry.eventData ++ chunkWitnessEntry.actionData,
      r.markedForSending = false) ∧
    (∀ op ∈ [CacheOp.addEvent 1 500 (toChars "n")], isInsertOp op = true) ∧
    (∃ e2 e3,
      lookupEntry (([CacheOp.addEvent 1 500 (toChars "n")]).foldl applyOp
        (getNextBeaconChunk chunkWitnessCache 1 (toChars "p") 4
          (toChars "&")).2).entries 1 = some e2 ∧
      lookupEntry (resetChunkedData (([CacheOp.addEvent 1 500 (toChars "n")]).foldl
        applyOp (getNextBeaconChunk chunkWitnessCache 1 (toChars "p") 4
          (toChars "&")).2) 1).entries 1 = some e3 ∧
      e3.eventData = (chunkWitnessEntry.eventData ++ chunkWitnessEntry.actionData) ++
        e2.eventData ∧
      e3.actionData = e2.actionData ∧
      e3.sendingChunked = [] ∧
      e3.sendingPending = [] ∧
      e3.hasSendingCopy = false ∧
      (∀ r ∈ e3.eventData ++ e3.actionData, r.markedForSending = false) ∧
      getNumBytesInCache (resetChunkedData (([CacheOp.addEvent 1 500
        (toChars "n")]).foldl applyOp (getNextBeaconChunk chunkWitnessCache 1
          (toChars "p") 4 (toChars "&")).2) 1) =
        getNumBytesInCache (([CacheOp.addEvent 1 500 (toChars "n")]).foldl applyOp
          (getNextBeaconChunk chunkWitnessCache 1 (toChars "p") 4 (toChars "&")).2) ∧
      (([CacheOp.addEvent 1 500 (toChars "n")] : List CacheOp) = [] →
        e3.eventData ++ e3.actionData ++ e3.sendingChunked ++ e3.sendingPending =
          chunkWitnessEntry.eventData ++ chunkWitnessEntry.actionData ++
            chunkWitnessEntry.sendingChunked ++ chunkWitnessEntry.sendingPending)) :=
  ⟨by decide, by decide, by decide, by decide, by decide, by decide,
    getNextBeaconChunk_then_reset chunkWitnessCache 1 chunkWitnessEntry
      (toChars "p") (toChars "&") 4 [CacheOp.addEvent 1 500 (toChars "n")]
      (by decide) (by decide) (by decide) (by decide) (by decide) (by decide)⟩

/-! ### Time-sync response parser: lemmas about the loop -/

theorem parsePart_skipped (k1 k2 : List Char) (s : Int × Int) (part : List Char)
    (h : partSkipped part = true) : parsePart k1 k2 s part = some s := by
  cases hsp : splitKV part with
  | none => simp [parsePart, hsp]
  | some kv =>
    simp only [partSkipped, hsp, Bool.or_eq_true, List.isEmpty_iff] at h
    have hne : ¬(kv.1 ≠ [] ∧ kv.2 ≠ []) := by tauto
    simp only [parsePart, hsp]
    rw [if_neg hne]

theorem parsePart_fst (k1 k2 : List Char) (s s2 : Int × Int) (part : List Char)
    (hm : partMatches k1 part = false)
    (h : parsePart k1 k2 s part = some s2) : s2.1 = s.1 := by
  cases hsp : splitKV part with
  | none =>
    simp only [parsePart, hsp] at h
    obtain rfl := Option.some.inj h
    rfl
  | some kv =>
    simp only [parsePart, hsp] at h
    simp only [partMatches, hsp] at hm
    by_cases hne : kv.1 ≠ [] ∧ kv.2 ≠ []
    · have hnk1 : kv.1 ≠ k1 := fun hk =>
        (of_decide_eq_false hm) ⟨hk, hne.1, hne.2⟩
      rw [if_pos hne, if_neg hnk1] at h
      by_cases hk2 : kv.1 = k2
      · rw [if_pos hk2] at h
        cases hst : stoll kv.2 with
        | none => rw [hst] at h; cases h
        | some v =>
          rw [hst] at h
          obtain rfl := Option.some.inj h
          rfl
      · rw [if_neg hk2] at h
        obtain rfl := Option.some.inj h
        rfl
    · rw [if_neg hne] at h
      obtain rfl := Option.some.inj h
      rfl

theorem parsePart_snd (k1 k2 : List Char) (s s2 : Int × Int) (part : List Char)
    (hm : partMatches k2 part = false)
    (h : parsePart k1 k2 s part = some s2) : s2.2 = s.2 := by
  cases hsp : splitKV part with
  | none =>
    simp only [parsePart, hsp] at h
    obtain rfl := Option.some.inj h
    rfl
  | some kv =>
    simp only [parsePart, hsp] at h
    simp only [partMatches, hsp] at hm
    by_cases hne : kv.1 ≠ [] ∧ kv.2 ≠ []
    · have hnk2 : kv.1 ≠ k2 := fun hk =>
        (of_decide_eq_false hm) ⟨hk, hne.1, hne.2⟩
      rw [if_pos hne] at h
      by_cases hk1 : kv.1 = k1
      · rw [if_pos hk1] at h
        cases hst : stoll kv.2 with
        | none => rw [hst] at h; cases h
        | some v =>
          rw [hst] at h
          obtain rfl := Option.some.inj h
          rfl
      · rw [if_neg hk1, if_neg hnk2] at h
        obtain rfl := Option.some.inj h
        rfl
    · rw [if_neg hne] at h
      obtain rfl := Option.some.inj h
      rfl

theorem parseParts_fst_preserved (k1 k2 : List Char) (parts : List (List Char)) :
    ∀ s st : Int × Int,
      (∀ part ∈ parts, partMatches k1 part = false) →
      parseParts k1 k2 s parts = some st → st.1 = s.1 := by
  induction parts with
  | nil =>
    intro s st _ h
    obtain rfl := Option.some.inj h
    rfl
  | cons p ps ih =>
    intro s st hm h
    cases hp : parsePart k1 k2 s p with
    | none =>
      simp only [parseParts, hp] at h
      exact Option.noConfusion h
    | some s2 =>
      simp only [parseParts, hp] at h
      have h1 := ih s2 st (fun q hq => hm q (by simp [hq])) h
      rw [h1, parsePart_fst k1 k2 s s2 p (hm p (by simp)) hp]

theorem parseParts_snd_preserved (k1 k2 : List Char) (parts : List (List Char)) :
    ∀ s st : Int × Int,
      (∀ part ∈ parts, partMatches k2 part = false) →
      parseParts k1 k2 s parts = some st → st.2 = s.2 := by
  induction parts with
  | nil =>
    intro s st _ h
    obtain rfl := Option.some.inj h
    rfl
  | cons p ps ih =>
    intro s st hm h
    cases hp : parsePart k1 k2 s p with
    | none =>
      simp only [parseParts, hp] at h
      exact Option.noConfusion h
    | some s2 =>
      simp only [parseParts, hp] at h
      have h1 := ih s2 st (fun q hq => hm q (by simp [hq])) h
      rw [h1, parsePart_snd k1 k2 s s2 p (hm p (by simp)) hp]

theorem parseParts_append (k1 k2 : List Char) (l1 l2 : List (List Char)) :
    ∀ s : Int × Int, parseParts k1 k2 s (l1 ++ l2) =
      match parseParts k1 k2 s l1 with
      | none => none
      | some s2 => parseParts k1 k2 s2 l2 := by
  induction l1 with
  | nil => intro s; rfl
  | cons p ps ih =>
    intro s
    simp only [List.cons_append, parseParts]
    cases hp : parsePart k1 k2 s p with
    | none => rfl
    | some s2 => exact ih s2

/-- C8: after a successfully constructed `TimeSyncResponse`, each of the two
times is `-1` unless some `&`-separated part splits as `key=value` with the
respective recognized protocol constant as key and both key and value
non-empty; parts with no `=`, or with an empty key or value, are skipped and
leave the state unchanged. -/
theorem timeSyncResponse_defaults (k1 k2 : List Char) (response : List Char)
    (st : Int × Int) (hp : timeSyncResponse k1 k2 response = some st) :
    ((∀ part ∈ splitAmp response, partMatches k1 part = false) → st.1 = -1) ∧
    ((∀ part ∈ splitAmp response, partMatches k2 part = false) → st.2 = -1) ∧
    (∀ (s : Int × Int) (part : List Char), partSkipped part = true →
      parsePart k1 k2 s part = some s) := by
  refine ⟨?_, ?_, fun s part h => parsePart_skipped k1 k2 s part h⟩
  · intro hm
    exact parseParts_fst_preserved k1 k2 (splitAmp response) (-1, -1) st hm hp
  · intro hm
    exact parseParts_snd_preserved k1 k2 (splitAmp response) (-1, -1) st hm hp

/-- A concrete instance of `timeSyncResponse_defaults`: a response naming only
the second key leaves the first time at `-1`. -/
theorem timeSyncResponse_defaults_witness :
    timeSyncResponse (toChars "t1") (toChars "t2") (toChars "x=1&t2=5") =
      some (-1, 5) ∧
    (((∀ part ∈ splitAmp (toChars "x=1&t2=5"),
        partMatches (toChars "t1") part = false) →
          ((-1 : Int), (5 : Int)).1 = -1) ∧
      ((∀ part ∈ splitAmp (toChars "x=1&t2=5"),
        partMatches (toChars "t2") part = false) →
          ((-1 : Int), (5 : Int)).2 = -1) ∧
      (∀ (s : Int × Int) (part : List Char), partSkipped part = true →
        parsePart (toChars "t1") (toChars "t2") s part = some s)) :=
  ⟨by decide,
    timeSyncResponse_defaults (toChars "t1") (toChars "t2")
      (toChars "x=1&t2=5") (-1, 5) (by decide)⟩

/-- C9: when a recognized key occurs several times, the value stored is the
one of the last occurrence: if a part `p` splits as that key with a parseable
value and no later part matches the key again, the corresponding field of the
parsed response equals that value. -/
theorem timeSyncResponse_last_occurrence (k1 k2 : List Char)
    (response : List Char) (pre suf : List (List Char)) (p v : List Char)
    (n : Int) (st : Int × Int)
    (hp : timeSyncResponse k1 k2 response = some st)
    (hsplit : splitAmp response = pre ++ p :: suf)
    (hv : v ≠ []) (hstoll : stoll v = some n) :
    (splitKV p = some (k1, v) → k1 ≠ [] →
      (∀ q ∈ suf, partMatches k1 q = false) → st.1 = n) ∧
    (splitKV p = some (k2, v) → k2 ≠ [] → k2 ≠ k1 →
      (∀ q ∈ suf, partMatches k2 q = false) → st.2 = n) := by
  have hp2 : parseParts k1 k2 (-1, -1) (pre ++ p :: suf) = some st := by
    rw [← hsplit]
    exact hp
  rw [parseParts_append] at hp2
  constructor
  · intro hkv hk1 hsuf
    cases hpre : parseParts k1 k2 (-1, -1) pre with
    | none => rw [hpre] at hp2; cases hp2
    | some s1 =>
      rw [hpre] at hp2
      have hpp : parsePart k1 k2 s1 p = some (n, s1.2) := by
        simp [parsePart, hkv, hk1, hv, hstoll]
      simp only [parseParts, hpp] at hp2
      exact parseParts_fst_preserved k1 k2 suf (n, s1.2) st hsuf hp2
  · intro hkv hk2 hkk hsuf
    cases hpre : parseParts k1 k2 (-1, -1) pre with
    | none => rw [hpre] at hp2; cases hp2
    | some s1 =>
      rw [hpre] at hp2
      have hpp : parsePart k1 k2 s1 p = some (s1.1, n) := by
        simp [parsePart, hkv, hk2, hv, hkk, hstoll]
      simp only [parseParts, hpp] at hp2
      exact parseParts_snd_preserved k1 k2 suf (s1.1, n) st hsuf hp2

/-- A concrete instance of `timeSyncResponse_last_occurrence`: `t1` occurs
twice and the second value, 2, wins. -/
theorem timeSyncResponse_last_occurrence_witness :
    timeSyncResponse (toChars "t1") (toChars "t2") (toChars "t1=1&t1=2") =
      some (2, -1) ∧
    splitAmp (toChars "t1=1&t1=2") = [toChars "t1=1"] ++ toChars "t1=2" :: [] ∧
    toChars "2" ≠ [] ∧
    stoll (toChars "2") = some 2 ∧
    ((splitKV (toChars "t1=2") = some (toChars "t1", toChars "2") →
        toChars "t1" ≠ [] →
        (∀ q ∈ ([] : List (List Char)), partMatches (toChars "t1") q = false) →
        ((2 : Int), (-1 : Int)).1 = 2) ∧
      (splitKV (toChars "t1=2") = some (toChars "t2", toChars "2") →
        toChars "t2" ≠ [] → toChars "t2" ≠ toChars "t1" →
        (∀ q ∈ ([] : List (List Char)), partMatches (toChars "t2") q = false) →
        ((2 : Int), (-1 : Int)).2 = 2)) :=
  ⟨by decide, by decide, by decide, by decide,
    timeSyncResponse_last_occurrence (toChars "t1") (toChars "t2")
      (toChars "t1=1&t1=2") [toChars "t1=1"] [] (toChars "t1=2") (toChars "2")
      2 (2, -1) (by decide) (by decide) (by decide) (by decide)⟩

theorem parseParts_total (k1 k2 : List Char) (parts : List (List Char)) :
    ∀ s : Int × Int, (∀ part ∈ parts, partValueParses k1 k2 part = true) →
      ∃ st, parseParts k1 k2 s parts = some st := by
  induction parts with
  | nil => intro s _; exact ⟨s, rfl⟩
  | cons p ps ih =>
    intro s hall
    have hpv : partValueParses k1 k2 p = true := hall p (by simp)
    have hstep : ∃ s2, parsePart k1 k2 s p = some s2 := by
      cases hsp : splitKV p with
      | none => exact ⟨s, by simp [parsePart, hsp]⟩
      | some kv =>
        simp only [partValueParses, hsp] at hpv
        by_cases hne : kv.1 ≠ [] ∧ kv.2 ≠ []
        · by_cases h1 : kv.1 = k1
          · have hsome : (stoll kv.2).isSome = true := by
              rw [if_pos ⟨hne.1, hne.2, Or.inl h1⟩] at hpv
              exact hpv
            obtain ⟨v, hv⟩ := Option.isSome_iff_exists.mp hsome
            refine ⟨(v, s.2), ?_⟩
            simp only [parsePart, hsp]
            rw [if_pos hne, if_pos h1, hv]
          · by_cases h2 : kv.1 = k2
            · have hsome : (stoll kv.2).isSome = true := by
                rw [if_pos ⟨hne.1, hne.2, Or.inr h2⟩] at hpv
                exact hpv
              obtain ⟨v, hv⟩ := Option.isSome_iff_exists.mp hsome
              refine ⟨(s.1, v), ?_⟩
              simp only [parsePart, hsp]
              rw [if_pos hne, if_neg h1, if_pos h2, hv]
            · refine ⟨s, ?_⟩
              simp only [parsePart, hsp]
              rw [if_pos hne, if_neg h1, if_neg h2]
        · refine ⟨s, ?_⟩
          simp only [parsePart, hsp]
          rw [if_neg hne]
    obtain ⟨s2, hs2⟩ := hstep
    obtain ⟨st, hst⟩ := ih s2 (fun q hq => hall q (by simp [hq]))
    refine ⟨st, ?_⟩
    simp only [parseParts, hs2]
    exact hst

/-- C10: constructing a `TimeSyncResponse` is not failure-free: on
`"t1=abc"` (a recognized key whose non-empty value starts with no digit)
`std::stoll` throws and the exception escapes the constructor, modelled as
`none`; whereas whenever every value reaching `stoll` parses as an `int64`,
parsing completes without an exception. -/
theorem timeSyncResponse_exceptions :
    timeSyncResponse (toChars "t1") (toChars "t2") (toChars "t1=abc") = none ∧
    (∀ (k1 k2 response : List Char),
      (∀ part ∈ splitAmp response, partValueParses k1 k2 part = true) →
      ∃ st, timeSyncResponse k1 k2 response = some st) := by
  constructor
  · decide
  · intro k1 k2 response hall
    exact parseParts_total k1 k2 (splitAmp response) (-1, -1) hall

/-- A concrete instance of `timeSyncResponse_exceptions`: both values parse,
so construction succeeds. -/
theorem timeSyncResponse_exceptions_witness :
    (∀ part ∈ splitAmp (toChars "t1=123&t2=456"),
      partValueParses (toChars "t1") (toChars "t2") part = true) ∧
    (∃ st, timeSyncResponse (toChars "t1") (toChars "t2")
      (toChars "t1=123&t2=456") = some st) :=
  ⟨by decide,
    timeSyncResponse_exceptions.2 (toChars "t1") (toChars "t2")
      (toChars "t1=123&t2=456") (by decide)⟩

end OpenKitModel
